import Mathlib

/-!
Shallow embedding of the ring-buffer `Queue<ValueType>` of
`src/StanfordCPPLib/queue.h`, together with proofs of the specification
claims about it.

The C++ class stores its elements in a `Vector<ValueType>` of length
`capacity` used as a circular buffer, with scalar fields `count`,
`capacity`, `head`, `tail`.  We model the state as a Lean structure whose
`ringBuffer` is a `List α` of length `capacity`; slots outside the live
range hold default values, matching the default-constructed slots of
`Vector(capacity)`.  C++ `int` fields are modelled as `Nat` (they are
always non-negative in this class, and no claim concerns `int` overflow).

Failure is modelled with `Except String`: the external `error(msg)`
facility (from `error.h`, not part of the sources under verification)
raises an exception carrying `msg`; an operation that may fail and mutate
returns its post-state next to the `Except` result, the post-state being
the input state when the error fires before any mutation.
-/

set_option autoImplicit false

universe u

/-- State of `Queue<ValueType>`: the five instance variables of the C++
class (`queue.h`, private section). -/
structure Queue (α : Type u) where
  ringBuffer : List α
  count : Nat
  capacity : Nat
  head : Nat
  tail : Nat
  deriving DecidableEq, Repr

/-- C++ `static const int INITIAL_CAPACITY = 10;`. -/
def INITIAL_CAPACITY : Nat := 10

namespace Queue

variable {α : Type u}

/-- C++ `Queue::clear`: sets `capacity = INITIAL_CAPACITY`, replaces the
ring buffer by a fresh `Vector<ValueType>(capacity)` (that is, `capacity`
default-constructed slots), and zeroes `head`, `tail`, `count`.  The prior
state is discarded entirely. -/
def clear [Inhabited α] (_q : Queue α) : Queue α :=
  { capacity := INITIAL_CAPACITY
    ringBuffer := List.replicate INITIAL_CAPACITY default
    head := 0
    tail := 0
    count := 0 }

/-- C++ `Queue::Queue()`: the constructor just calls `clear()`; the field
values passed here are irrelevant because `clear` overwrites every field. -/
def new [Inhabited α] : Queue α :=
  Queue.clear { ringBuffer := [], count := 0, capacity := 0, head := 0, tail := 0 }

/-- C++ `Queue::isEmpty`: `count == 0`. -/
def isEmpty (q : Queue α) : Bool :=
  q.count == 0

/-- C++ `Queue::size`: returns `count`. -/
def size (q : Queue α) : Nat :=
  q.count

/-- C++ `Queue::expandRingBufferCapacity`: copies the ring buffer, allocates
a fresh default-initialized store of length `2 * capacity`, and runs
`for (i = 0; i < count; i++) ringBuffer[i] = copy[(head + i) % capacity]`.
The loop writes slot `i` of the fresh store for `i = 0 .. count-1` and
leaves the remaining slots default, so slot `i` of the new store is
`copy[(head + i) % capacity]` when `i < count` and `default` otherwise.
Afterwards `head = 0`, `tail = count`, `capacity *= 2`. -/
def expandRingBufferCapacity [Inhabited α] (q : Queue α) : Queue α :=
  let copy := q.ringBuffer
  { ringBuffer := (List.range (2 * q.capacity)).map
      (fun i => if i < q.count then copy.getD ((q.head + i) % q.capacity) default else default)
    head := 0
    tail := q.count
    capacity := 2 * q.capacity
    count := q.count }

/-- C++ `Queue::enqueue`: grows first when `count >= capacity - 1`, then
writes `value` at `ringBuffer[tail]`, sets `tail = (tail + 1) % capacity`
and increments `count`.  Note that after a growth the new `capacity` and
`tail` are the ones used for the write and the wraparound. -/
def enqueue [Inhabited α] (q : Queue α) (value : α) : Queue α :=
  let q := if q.capacity - 1 ≤ q.count then q.expandRingBufferCapacity else q
  { q with
    ringBuffer := q.ringBuffer.set q.tail value
    tail := (q.tail + 1) % q.capacity
    count := q.count + 1 }

/-- Successful branch of C++ `Queue::dequeue` (the code below the empty
check): reads `result = ringBuffer[head]`, sets `head = (head + 1) % capacity`,
decrements `count`, returns the read value. -/
def dequeue1 [Inhabited α] (q : Queue α) : α × Queue α :=
  (q.ringBuffer.getD q.head default,
   { q with head := (q.head + 1) % q.capacity, count := q.count - 1 })

/-- C++ `Queue::dequeue`: calls `error(...)` when `count == 0` — before any
mutation, so the post-state is the input state — and otherwise behaves as
`dequeue1`. -/
def dequeue [Inhabited α] (q : Queue α) : Except String α × Queue α :=
  if q.count = 0 then
    (Except.error "Queue::dequeue: Attempting to dequeue an empty queue", q)
  else
    (Except.ok (q.dequeue1).1, (q.dequeue1).2)

/-- C++ `Queue::front`: `error` when `count == 0`, else returns (a reference
to) `ringBuffer[head]`.  The method mutates nothing. -/
def front [Inhabited α] (q : Queue α) : Except String α :=
  if q.count = 0 then
    Except.error "Queue::front: Attempting to read front of an empty queue"
  else
    Except.ok (q.ringBuffer.getD q.head default)

/-- C++ `Queue::back`: `error` when `count == 0`, else returns (a reference
to) `ringBuffer[(tail + capacity - 1) % capacity]`.  Mutates nothing. -/
def back [Inhabited α] (q : Queue α) : Except String α :=
  if q.count = 0 then
    Except.error "Queue::back: Attempting to read back of an empty queue"
  else
    Except.ok (q.ringBuffer.getD ((q.tail + q.capacity - 1) % q.capacity) default)

/-- C++ `Queue::peek`: `error` when `count == 0`, else returns
`ringBuffer.get(head)` by value.  Mutates nothing. -/
def peek [Inhabited α] (q : Queue α) : Except String α :=
  if q.count = 0 then
    Except.error "Queue::peek: Attempting to peek at an empty queue"
  else
    Except.ok (q.ringBuffer.getD q.head default)

/-- Logical FIFO sequence of the queue: element `i` (0 = oldest) lives at
`ringBuffer[(head + i) % capacity]`, for `i < count`.  This is the
abstraction function used throughout; it is exactly the sequence described
in the data-model section of the specification. -/
def seq [Inhabited α] (q : Queue α) : List α :=
  (List.range q.count).map (fun i => q.ringBuffer.getD ((q.head + i) % q.capacity) default)

/-- Representation invariant of the ring buffer, as stated in the
specification: positive capacity, one slot always unused
(`count ≤ capacity - 1`), both indices in range, `tail` determined by
`head`, `count` and wraparound, and the backing store exactly `capacity`
slots long. -/
def WF [Inhabited α] (q : Queue α) : Prop :=
  0 < q.capacity ∧
  q.count ≤ q.capacity - 1 ∧
  q.head < q.capacity ∧
  q.tail < q.capacity ∧
  q.tail = (q.head + q.count) % q.capacity ∧
  q.ringBuffer.length = q.capacity

instance [Inhabited α] [DecidableEq α] (q : Queue α) : Decidable (Queue.WF q) := by
  unfold Queue.WF
  infer_instance

/-- Enqueue a whole list, oldest first: `xs.foldl enqueue q`. -/
def enqueueAll [Inhabited α] (q : Queue α) (xs : List α) : Queue α :=
  xs.foldl Queue.enqueue q

/-- Dequeue `n` times, collecting the returned values in order.  A failing
dequeue (empty queue) stops the run, mirroring the exception aborting a
caller's loop; in verified uses the count never reaches zero early. -/
def dequeueN [Inhabited α] (q : Queue α) : Nat → List α × Queue α
  | 0 => ([], q)
  | n + 1 =>
    match q.dequeue with
    | (Except.ok v, q1) =>
      let r := q1.dequeueN n
      (v :: r.1, r.2)
    | (Except.error _, q1) => ([], q1)

/-! Equality protocol (`Queue::equals`) and the copy-drain pattern. -/

/-- Loop of C++ `Queue::equals`, run on the two value copies:
`while (!copy1.isEmpty() && !copy2.isEmpty())` dequeue a pair and compare;
afterwards return `copy1.isEmpty() == copy2.isEmpty()`.  Inside the loop
both copies are non-empty, so each `dequeue()` takes its successful branch
`dequeue1`. -/
def equalsLoop [DecidableEq α] [Inhabited α] (copy1 copy2 : Queue α) : Bool :=
  if _h : copy1.isEmpty = false ∧ copy2.isEmpty = false then
    if (copy1.dequeue1).1 = (copy2.dequeue1).1 then
      equalsLoop (copy1.dequeue1).2 (copy2.dequeue1).2
    else false
  else copy1.isEmpty == copy2.isEmpty
termination_by copy1.count
decreasing_by
  have hne : copy1.count ≠ 0 := by simpa [Queue.isEmpty] using _h.1
  show copy1.count - 1 < copy1.count
  omega

/-- C++ `Queue::equals`: the identity short-circuit `this == &queue2`
(returning `true`) is not representable for values and agrees with the
structural path (see `equals_self`); then sizes are compared, and the two
deep copies are drained by `equalsLoop`. -/
def equals [DecidableEq α] [Inhabited α] (q queue2 : Queue α) : Bool :=
  if q.size ≠ queue2.size then false
  else
    let copy1 := q
    let copy2 := queue2
    equalsLoop copy1 copy2

/-- C++ drain pattern `while (!copy.isEmpty()) result.push_back(copy.dequeue());`
run on a value copy: returns the collected values in dequeue order together
with the exhausted copy.  Inside the loop the copy is non-empty, so each
`dequeue()` takes its successful branch `dequeue1`. -/
def drainLoop [Inhabited α] (copy : Queue α) : List α × Queue α :=
  if _h : copy.isEmpty = false then
    let p := copy.dequeue1
    let r := drainLoop p.2
    (p.1 :: r.1, r.2)
  else ([], copy)
termination_by copy.count
decreasing_by
  have hne : copy.count ≠ 0 := by simpa [Queue.isEmpty] using _h
  show copy.count - 1 < copy.count
  omega

/-- C++ `Queue::toStlDeque`: `Queue<ValueType> copy = *this;` is drained
into a `std::deque` by `push_back`, so the exported list is in front-to-back
order; `*this` is never written, which the explicit post-state records. -/
def toStlDeque [Inhabited α] (q : Queue α) : List α × Queue α :=
  let copy := q
  ((drainLoop copy).1, q)

/-- C++ `Queue::toStlQueue`: same drain as `toStlDeque`, pushing into a
`std::queue`; again `*this` is never written. -/
def toStlQueue [Inhabited α] (q : Queue α) : List α × Queue α :=
  let copy := q
  ((drainLoop copy).1, q)

end Queue

/-! Serialization.  The queue side — `operator<<`, `toString`, `operator>>`
(`queue.h`, lines 371-410) — is embedded below.  Its collaborators are
external to the sources under verification: the C++ iostream character
extraction `is >> ch` and the generic element formatter/reader
`writeGenericValue` / `readGenericValue` (the specification lists the
"generic value-formatting/parsing facility" as an excluded leaf
dependency).  Those collaborators are modelled from the spec, for element
type `Nat`, as `skipWs`/`readChar` and `writeNat`/`readNat`. -/

/-- Modelled from the spec: whitespace skipping performed by formatted
extraction (`is >> ch`); the reader "tolerates whitespace between tokens". -/
def skipWs : List Char → List Char
  | [] => []
  | c :: cs => if c.isWhitespace then skipWs cs else c :: cs

/-- Modelled from the spec: `is >> ch` skips whitespace and extracts one
character; extraction fails when the input is exhausted. -/
def readChar (s : List Char) : Option (Char × List Char) :=
  match skipWs s with
  | [] => none
  | c :: cs => some (c, cs)

/-- Fuel-bounded decimal rendering helper; always called with `fuel > n`,
so the fuel never runs out. -/
def writeNatCore : Nat → Nat → List Char
  | 0, _ => []
  | fuel + 1, n =>
    if n < 10 then [Nat.digitChar n]
    else writeNatCore fuel (n / 10) ++ [Nat.digitChar (n % 10)]

/-- Modelled from the spec: `writeGenericValue` renders a `Nat` element in
its natural decimal textual form (non-string values are not quoted). -/
def writeNat (n : Nat) : List Char :=
  writeNatCore (n + 1) n

/-- Modelled from the spec: `readGenericValue` for `Nat` elements skips
leading whitespace and parses a non-empty run of decimal digits; it fails
when no digit is present. -/
def readNat (s : List Char) : Option (Nat × List Char) :=
  let s1 := skipWs s
  let ds := s1.takeWhile Char.isDigit
  if ds = [] then none
  else some (ds.foldl (fun a c => 10 * a + (c.toNat - 48)) 0, s1.dropWhile Char.isDigit)

/-- Element rendering of C++ `operator<<` for queues: the counted loop
writes the values dequeued from the copy in order, prefixing every element
except the first with a comma and a space. -/
def writeVals : List Nat → List Char
  | [] => []
  | [v] => writeNat v
  | v :: vs => writeNat v ++ ',' :: ' ' :: writeVals vs

/-- C++ `operator<<` for queues: writes an opening brace, drains a value
copy with a counted loop (`len = queue.size()`) rendering the dequeued
elements separated by a comma and a space, then writes the closing brace. -/
def writeQueue (queue : Queue Nat) : List Char :=
  let len := queue.size
  let copy := queue
  '\x7b' :: writeVals ((copy.dequeueN len).1) ++ ['\x7d']

/-- C++ `Queue::toString`: streams the queue through `operator<<` into a
string stream and returns the accumulated string. -/
def Queue.toString (q : Queue Nat) : String :=
  String.mk (writeQueue q)

/-- Loop of C++ `operator>>` for queues (`while (true) ...`): parse one
element, enqueue it, extract the next non-whitespace character; a closing
brace ends parsing, a comma continues, anything else raises the
format error naming the unexpected character.  The loop is bounded by
fuel; every iteration consumes input, and callers supply more fuel than
input length, so the fuel never runs out on inputs whose extractions
succeed.  A failed element read or character extraction surfaces as an
error carrying the state already parsed (the external collaborators'
behavior past that point is not part of the sources). -/
def readLoop : Nat → List Char → Queue Nat → Queue Nat × Except String (List Char)
  | 0, _, queue => (queue, Except.error "Queue::operator >>: unexpected end of input")
  | fuel + 1, s, queue =>
    match readNat s with
    | none => (queue, Except.error "Queue::operator >>: readGenericValue failed")
    | some (value, s1) =>
      let q1 := queue.enqueue value
      match readChar s1 with
      | none => (q1, Except.error "Queue::operator >>: unexpected end of input")
      | some (ch, s2) =>
        if ch = '\x7d' then (q1, Except.ok s2)
        else if ch = ',' then readLoop fuel s2 q1
        else (q1, Except.error ("Queue::operator >>: Unexpected character " ++ ch.toString))

/-- C++ `operator>>` for queues: reads one character into `ch` (initialized
to the null character, and left unchanged by a failed extraction, so an
exhausted stream also reports a missing opening brace); raises the format
error if it is not an opening brace — the queue is NOT yet cleared at that
point.  Only then clears the queue, peeks the next character for an
immediately closing brace (empty serialization), and otherwise puts the
character back (`is.unget()`) and runs the element loop. -/
def readQueue (s : List Char) (queue : Queue Nat) : Queue Nat × Except String (List Char) :=
  match readChar s with
  | none => (queue, Except.error "Queue::operator >>: Missing \x7b")
  | some (ch, s1) =>
    if ch ≠ '\x7b' then (queue, Except.error "Queue::operator >>: Missing \x7b")
    else
      let q1 := Queue.clear queue
      match readChar s1 with
      | none => (q1, Except.error "Queue::operator >>: unexpected end of input")
      | some (ch2, s2) =>
        if ch2 = '\x7d' then (q1, Except.ok s2)
        else readLoop (s1.length + 1) (ch2 :: s2) q1

/-! Additional definitions used by individual claims. -/

/-- One mutating client operation, for capacity-evolution statements. -/
inductive QOp (α : Type u) where
  | enq (v : α)
  | deq

/-- Apply one operation: `enq` runs `enqueue`; `deq` runs `dequeue` and
keeps the post-state (the returned value or error is dropped). -/
def Queue.applyOp {α : Type u} [Inhabited α] (q : Queue α) : QOp α → Queue α
  | QOp.enq v => q.enqueue v
  | QOp.deq => (q.dequeue).2

/-- Apply a whole sequence of operations, oldest first. -/
def Queue.applyOps {α : Type u} [Inhabited α] (q : Queue α) (ops : List (QOp α)) : Queue α :=
  ops.foldl Queue.applyOp q

/-- Fold of `enqueue` that also counts how many of the enqueues found
`count >= capacity - 1` and hence triggered a growth. -/
def Queue.enqueueAllGrowthsAux {α : Type u} [Inhabited α]
    (p : Queue α × Nat) (xs : List α) : Queue α × Nat :=
  xs.foldl (fun p v =>
    (p.1.enqueue v, p.2 + if p.1.capacity - 1 ≤ p.1.count then 1 else 0)) p

/-- Enqueue a list onto `q`, returning the final queue and the number of
growth events triggered. -/
def Queue.enqueueAllGrowths {α : Type u} [Inhabited α]
    (q : Queue α) (xs : List α) : Queue α × Nat :=
  Queue.enqueueAllGrowthsAux (q, 0) xs

/-- Const-method embedding of C++ `Queue::equals`: the method's body reads
`*this` and `queue2` and drains local copies, never writing either operand,
so its observable effect is the Boolean result next to the two unchanged
operand states. -/
def Queue.equalsM {α : Type u} [DecidableEq α] [Inhabited α]
    (q queue2 : Queue α) : Bool × Queue α × Queue α :=
  (q.equals queue2, q, queue2)

/-- Const-method embedding of C++ `Queue::toString` / `operator<<`: the
serialization drains a local copy and never writes `*this`. -/
def Queue.toStringM (q : Queue Nat) : String × Queue Nat :=
  (q.toString, q)

/-! With the embedding complete, the remainder of the file is theorems:
first the supporting lemmas, then the claim theorems. -/

namespace Queue

variable {α : Type u}

/-! Basic arithmetic and abstraction lemmas. -/

/-- Distinct offsets below the capacity land on distinct ring-buffer slots. -/
theorem mod_index_inj (n a i j : Nat) (hi : i < n) (hj : j < n)
    (h : (a + i) % n = (a + j) % n) : i = j := by
  have hij : i ≡ j [MOD n] := Nat.ModEq.add_left_cancel' a h
  have := hij.eq_of_lt_of_lt hi hj
  exact this

@[simp] theorem seq_length [Inhabited α] (q : Queue α) : q.seq.length = q.count := by
  simp [seq]

theorem seq_getD [Inhabited α] (q : Queue α) (i : Nat) (h : i < q.count) :
    q.seq.getD i default = q.ringBuffer.getD ((q.head + i) % q.capacity) default := by
  simp [seq, List.getD_eq_getElem?_getD, List.getElem?_map, List.getElem?_range h]

@[simp] theorem clear_count [Inhabited α] (q : Queue α) : (q.clear).count = 0 := rfl

@[simp] theorem clear_capacity [Inhabited α] (q : Queue α) :
    (q.clear).capacity = INITIAL_CAPACITY := rfl

@[simp] theorem clear_seq [Inhabited α] (q : Queue α) : (q.clear).seq = [] := by
  simp [seq, clear]

theorem clear_WF [Inhabited α] (q : Queue α) : (q.clear).WF := by
  simp [WF, clear, INITIAL_CAPACITY]

theorem new_WF [Inhabited α] : (Queue.new : Queue α).WF :=
  clear_WF _

@[simp] theorem new_count [Inhabited α] : (Queue.new : Queue α).count = 0 := rfl

@[simp] theorem new_seq [Inhabited α] : (Queue.new : Queue α).seq = [] :=
  clear_seq _

theorem expand_ringBuffer_getD [Inhabited α] (q : Queue α) (i : Nat)
    (h : i < 2 * q.capacity) :
    (q.expandRingBufferCapacity).ringBuffer.getD i default =
      if i < q.count then q.ringBuffer.getD ((q.head + i) % q.capacity) default
      else default := by
  simp [expandRingBufferCapacity, List.getD_eq_getElem?_getD,
    List.getElem?_map, List.getElem?_range h]

theorem expand_spec [Inhabited α] (q : Queue α) (hq : q.WF) :
    (q.expandRingBufferCapacity).capacity = 2 * q.capacity ∧
    (q.expandRingBufferCapacity).head = 0 ∧
    (q.expandRingBufferCapacity).tail = q.count ∧
    (q.expandRingBufferCapacity).count = q.count ∧
    (q.expandRingBufferCapacity).ringBuffer.length = 2 * q.capacity ∧
    (q.expandRingBufferCapacity).seq = q.seq ∧
    (q.expandRingBufferCapacity).WF := by
  obtain ⟨hcap, hcnt, hhead, htail, heq, hlen⟩ := hq
  refine ⟨rfl, rfl, rfl, rfl, by simp [expandRingBufferCapacity], ?_, ?_⟩
  · unfold seq
    apply List.map_congr_left
    intro i hi
    have hi' : i < q.count := List.mem_range.mp hi
    have hicap : i < 2 * q.capacity := by omega
    show (q.expandRingBufferCapacity).ringBuffer.getD
        (((q.expandRingBufferCapacity).head + i) % (q.expandRingBufferCapacity).capacity)
        default = _
    have hmod : ((q.expandRingBufferCapacity).head + i) %
        (q.expandRingBufferCapacity).capacity = i := by
      show (0 + i) % (2 * q.capacity) = i
      rw [Nat.zero_add, Nat.mod_eq_of_lt hicap]
    rw [hmod, expand_ringBuffer_getD q i hicap, if_pos hi']
  · refine ⟨?_, ?_, ?_, ?_, ?_, by simp [expandRingBufferCapacity]⟩
    · show 0 < 2 * q.capacity
      omega
    · show q.count ≤ 2 * q.capacity - 1
      omega
    · show (0 : Nat) < 2 * q.capacity
      omega
    · show q.count < 2 * q.capacity
      omega
    · show q.count = (0 + q.count) % (2 * q.capacity)
      rw [Nat.zero_add, Nat.mod_eq_of_lt (by omega)]

/-- Effect of the write step shared by both branches of `enqueue`, for a
well-formed queue with strictly more than one free slot. -/
theorem push_spec [Inhabited α] (q : Queue α) (v : α) (hq : q.WF)
    (hlt : q.count < q.capacity - 1) :
    ({ q with ringBuffer := q.ringBuffer.set q.tail v,
              tail := (q.tail + 1) % q.capacity,
              count := q.count + 1 } : Queue α).WF ∧
    ({ q with ringBuffer := q.ringBuffer.set q.tail v,
              tail := (q.tail + 1) % q.capacity,
              count := q.count + 1 } : Queue α).seq = q.seq ++ [v] := by
  obtain ⟨hcap, hcnt, hhead, htail, heq, hlen⟩ := hq
  constructor
  · refine ⟨hcap, ?_, hhead, ?_, ?_, ?_⟩
    · show q.count + 1 ≤ q.capacity - 1
      omega
    · show (q.tail + 1) % q.capacity < q.capacity
      exact Nat.mod_lt _ hcap
    · show (q.tail + 1) % q.capacity = (q.head + (q.count + 1)) % q.capacity
      rw [heq, Nat.mod_add_mod]
      congr 1
    · show (q.ringBuffer.set q.tail v).length = q.capacity
      simp [hlen]
  · show (List.range (q.count + 1)).map
        (fun i => (q.ringBuffer.set q.tail v).getD ((q.head + i) % q.capacity) default) =
      q.seq ++ [v]
    rw [List.range_succ, List.map_append, List.map_singleton]
    congr 1
    · unfold seq
      apply List.map_congr_left
      intro i hi
      have hi' : i < q.count := List.mem_range.mp hi
      have hne : q.tail ≠ (q.head + i) % q.capacity := by
        rw [heq]
        intro hcontra
        have := mod_index_inj q.capacity q.head q.count i (by omega) (by omega) hcontra
        omega
      simp only [List.getD_eq_getElem?_getD, List.getElem?_set_ne hne]
    · have htl : q.tail < q.ringBuffer.length := by omega
      have hwrap : (q.head + q.count) % q.capacity = q.tail := heq.symm
      rw [hwrap]
      simp [List.getD_eq_getElem?_getD, List.getElem?_set_eq htl]

/-- Full effect of `enqueue` on a well-formed queue: well-formedness is
preserved and the value is appended to the logical sequence. -/
theorem enqueue_spec [Inhabited α] (q : Queue α) (v : α) (hq : q.WF) :
    (q.enqueue v).WF ∧ (q.enqueue v).seq = q.seq ++ [v] ∧
    (q.enqueue v).count = q.count + 1 := by
  unfold enqueue
  by_cases h : q.capacity - 1 ≤ q.count
  · simp only [if_pos h]
    obtain ⟨hecap, _, _, hecnt, _, heseq, hewf⟩ := expand_spec q hq
    have hlt : (q.expandRingBufferCapacity).count <
        (q.expandRingBufferCapacity).capacity - 1 := by
      rw [hecap, hecnt]
      obtain ⟨hcap, hcnt, _, _, _, _⟩ := hq
      omega
    obtain ⟨hwf, hseq⟩ := push_spec (q.expandRingBufferCapacity) v hewf hlt
    exact ⟨hwf, by rw [hseq, heseq], by simp [hecnt]⟩
  · simp only [if_neg h]
    have hlt : q.count < q.capacity - 1 := by omega
    obtain ⟨hwf, hseq⟩ := push_spec q v hq hlt
    exact ⟨hwf, hseq, trivial⟩

/-- Effect of the successful dequeue branch on a well-formed non-empty
queue: the head of the logical sequence comes off. -/
theorem dequeue1_spec [Inhabited α] (q : Queue α) (hq : q.WF) (hne : q.count ≠ 0) :
    (q.dequeue1).2.WF ∧
    q.seq = (q.dequeue1).1 :: (q.dequeue1).2.seq ∧
    (q.dequeue1).2.count = q.count - 1 ∧
    (q.dequeue1).2.capacity = q.capacity := by
  obtain ⟨hcap, hcnt, hhead, htail, heq, hlen⟩ := hq
  refine ⟨⟨hcap, ?_, ?_, htail, ?_, hlen⟩, ?_, rfl, rfl⟩
  · show q.count - 1 ≤ q.capacity - 1
    omega
  · show (q.head + 1) % q.capacity < q.capacity
    exact Nat.mod_lt _ hcap
  · show q.tail = ((q.head + 1) % q.capacity + (q.count - 1)) % q.capacity
    rw [heq, Nat.mod_add_mod]
    congr 1
    omega
  · show q.seq = q.ringBuffer.getD q.head default ::
      (List.range (q.count - 1)).map
        (fun i => q.ringBuffer.getD (((q.head + 1) % q.capacity + i) % q.capacity) default)
    unfold seq
    obtain ⟨m, hm⟩ : ∃ m, q.count = m + 1 := ⟨q.count - 1, by omega⟩
    rw [hm]
    rw [List.range_succ_eq_map, List.map_cons, List.map_map]
    congr 1
    · rw [Nat.add_zero, Nat.mod_eq_of_lt hhead]
    · simp only [hm, Nat.add_sub_cancel]
      apply List.map_congr_left
      intro i _
      simp only [Function.comp]
      rw [Nat.mod_add_mod]
      have harg : q.head + i.succ = q.head + 1 + i := by omega
      rw [harg]

/-- Effect of `dequeue` on a well-formed non-empty queue. -/
theorem dequeue_spec [Inhabited α] (q : Queue α) (hne : q.count ≠ 0) :
    (q.dequeue).1 = Except.ok ((q.dequeue1).1) ∧
    (q.dequeue).2 = (q.dequeue1).2 := by
  simp [dequeue, hne]

/-- Enqueueing a list appends it to the logical sequence. -/
theorem enqueueAll_spec [Inhabited α] (q : Queue α) (xs : List α) (hq : q.WF) :
    (q.enqueueAll xs).WF ∧ (q.enqueueAll xs).seq = q.seq ++ xs := by
  induction xs generalizing q with
  | nil => simpa [enqueueAll]
  | cons x xs ih =>
    obtain ⟨hwf, hseq, _⟩ := enqueue_spec q x hq
    obtain ⟨hwf', hseq'⟩ := ih (q.enqueue x) hwf
    refine ⟨hwf', ?_⟩
    show ((q.enqueue x).enqueueAll xs).seq = _
    rw [hseq', hseq, List.append_assoc]
    rfl

/-- Dequeueing `n ≤ count` times returns the first `n` elements of the
logical sequence and leaves the rest. -/
theorem dequeueN_spec [Inhabited α] (n : Nat) (q : Queue α) (hq : q.WF)
    (hn : n ≤ q.count) :
    (q.dequeueN n).1 = q.seq.take n ∧
    (q.dequeueN n).2.WF ∧
    (q.dequeueN n).2.seq = q.seq.drop n ∧
    (q.dequeueN n).2.count = q.count - n ∧
    (q.dequeueN n).2.capacity = q.capacity := by
  induction n generalizing q with
  | zero => simp [dequeueN, hq]
  | succ n ih =>
    have hne : q.count ≠ 0 := by omega
    obtain ⟨hwf1, hcons, hcnt1, hcap1⟩ := dequeue1_spec q hq hne
    obtain ⟨ih1, ih2, ih3, ih4, ih5⟩ := ih (q.dequeue1).2 hwf1 (by omega)
    have hstep : q.dequeueN (n + 1) =
        ((q.dequeue1).1 :: ((q.dequeue1).2.dequeueN n).1, ((q.dequeue1).2.dequeueN n).2) := by
      simp [dequeueN, dequeue, hne]
    rw [hstep]
    refine ⟨?_, ih2, ?_, ?_, ?_⟩
    · rw [hcons, List.take_succ_cons, ih1]
    · rw [hcons, List.drop_succ_cons, ih3]
    · show ((q.dequeue1).2.dequeueN n).2.count = q.count - (n + 1)
      omega
    · show ((q.dequeue1).2.dequeueN n).2.capacity = q.capacity
      rw [ih5, hcap1]

theorem equalsLoop_self_aux [DecidableEq α] [Inhabited α] (n : Nat) :
    ∀ q : Queue α, q.count ≤ n → equalsLoop q q = true := by
  induction n with
  | zero =>
    intro q hle
    have h0 : q.isEmpty = true := by
      simp [isEmpty]
      omega
    rw [equalsLoop, dif_neg (by simp [h0])]
    simp
  | succ n ih =>
    intro q hle
    rw [equalsLoop]
    by_cases he : q.isEmpty = false
    · rw [dif_pos ⟨he, he⟩, if_pos rfl]
      apply ih
      have hne : q.count ≠ 0 := by simpa [isEmpty] using he
      show q.count - 1 ≤ n
      omega
    · rw [dif_neg (fun hc => he hc.1)]
      simp

/-- `equalsLoop` on two identical states returns `true`. -/
theorem equalsLoop_self [DecidableEq α] [Inhabited α] (q : Queue α) :
    equalsLoop q q = true :=
  equalsLoop_self_aux q.count q le_rfl

theorem equalsLoop_comm_aux [DecidableEq α] [Inhabited α] (n : Nat) :
    ∀ c1 c2 : Queue α, c1.count ≤ n → equalsLoop c1 c2 = equalsLoop c2 c1 := by
  induction n with
  | zero =>
    intro c1 c2 hle
    have h0 : c1.isEmpty = true := by
      simp [isEmpty]
      omega
    conv_lhs => rw [equalsLoop]
    conv_rhs => rw [equalsLoop]
    rw [dif_neg (by simp [h0]), dif_neg (by simp [h0])]
    cases hb : c2.isEmpty <;> simp [h0, hb]
  | succ n ih =>
    intro c1 c2 hle
    conv_lhs => rw [equalsLoop]
    conv_rhs => rw [equalsLoop]
    by_cases h1 : c1.isEmpty = false
    · by_cases h2 : c2.isEmpty = false
      · rw [dif_pos ⟨h1, h2⟩, dif_pos ⟨h2, h1⟩]
        by_cases hv : (c1.dequeue1).1 = (c2.dequeue1).1
        · rw [if_pos hv, if_pos hv.symm]
          apply ih
          have hne : c1.count ≠ 0 := by simpa [isEmpty] using h1
          show c1.count - 1 ≤ n
          omega
        · rw [if_neg hv, if_neg (fun hh => hv hh.symm)]
      · rw [dif_neg (fun hc => h2 hc.2), dif_neg (fun hc => h2 hc.1)]
        cases hb1 : c1.isEmpty <;> cases hb2 : c2.isEmpty <;> simp_all
    · rw [dif_neg (fun hc => h1 hc.1), dif_neg (fun hc => h1 hc.2)]
      cases hb1 : c1.isEmpty <;> cases hb2 : c2.isEmpty <;> simp_all

/-- The comparison loop is symmetric in its two operands. -/
theorem equalsLoop_comm [DecidableEq α] [Inhabited α] (c1 c2 : Queue α) :
    equalsLoop c1 c2 = equalsLoop c2 c1 :=
  equalsLoop_comm_aux c1.count c1 c2 le_rfl

theorem equalsLoop_iff_aux [DecidableEq α] [Inhabited α] (n : Nat) :
    ∀ c1 c2 : Queue α, c1.WF → c2.WF → c1.count = c2.count → c1.count ≤ n →
      (equalsLoop c1 c2 = true ↔ c1.seq = c2.seq) := by
  induction n with
  | zero =>
    intro c1 c2 h1 h2 hcnt hle
    have e1 : c1.count = 0 := by omega
    have e2 : c2.count = 0 := by omega
    rw [equalsLoop, dif_neg (by simp [isEmpty, e1])]
    simp [isEmpty, e1, e2, seq]
  | succ n ih =>
    intro c1 c2 h1 h2 hcnt hle
    by_cases hz : c1.count = 0
    · have e2 : c2.count = 0 := by omega
      rw [equalsLoop, dif_neg (by simp [isEmpty, hz])]
      simp [isEmpty, hz, e2, seq]
    · have hz2 : c2.count ≠ 0 := by omega
      obtain ⟨hwf1, hcons1, hc1, _⟩ := dequeue1_spec c1 h1 hz
      obtain ⟨hwf2, hcons2, hc2, _⟩ := dequeue1_spec c2 h2 hz2
      rw [equalsLoop,
        dif_pos ⟨by simp [isEmpty, hz], by simp [isEmpty, hz2]⟩]
      by_cases hv : (c1.dequeue1).1 = (c2.dequeue1).1
      · rw [if_pos hv]
        rw [ih (c1.dequeue1).2 (c2.dequeue1).2 hwf1 hwf2 (by omega) (by omega)]
        rw [hcons1, hcons2, hv]
        simp
      · rw [if_neg hv]
        rw [hcons1, hcons2]
        simp [hv]

/-- On well-formed queues of equal count, the comparison loop succeeds
exactly when the logical sequences agree. -/
theorem equalsLoop_iff [DecidableEq α] [Inhabited α] (c1 c2 : Queue α)
    (h1 : c1.WF) (h2 : c2.WF) (hcnt : c1.count = c2.count) :
    equalsLoop c1 c2 = true ↔ c1.seq = c2.seq :=
  equalsLoop_iff_aux c1.count c1 c2 h1 h2 hcnt le_rfl

/-- `equals` succeeds exactly when the logical sequences agree. -/
theorem equals_iff [DecidableEq α] [Inhabited α] (q1 q2 : Queue α)
    (h1 : q1.WF) (h2 : q2.WF) :
    equals q1 q2 = true ↔ q1.seq = q2.seq := by
  unfold equals
  by_cases hs : q1.size ≠ q2.size
  · rw [if_pos hs]
    constructor
    · intro hfalse
      exact absurd hfalse (by simp)
    · intro hseq
      exfalso
      apply hs
      show q1.count = q2.count
      rw [← seq_length q1, ← seq_length q2, hseq]
  · rw [if_neg hs]
    push_neg at hs
    exact equalsLoop_iff q1 q2 h1 h2 hs

/-- `equals` is reflexive on every state, matching the identity
short-circuit of the C++ code. -/
theorem equals_self [DecidableEq α] [Inhabited α] (q : Queue α) :
    equals q q = true := by
  unfold equals
  rw [if_neg (by simp)]
  exact equalsLoop_self q

/-- `equals` is symmetric. -/
theorem equals_comm [DecidableEq α] [Inhabited α] (q1 q2 : Queue α) :
    equals q1 q2 = equals q2 q1 := by
  unfold equals
  by_cases hs : q1.size = q2.size
  · rw [if_neg (by omega), if_neg (by omega)]
    exact equalsLoop_comm q1 q2
  · rw [if_pos (by omega), if_pos (by omega)]

theorem drainLoop_spec_aux [Inhabited α] (n : Nat) :
    ∀ q : Queue α, q.WF → q.count ≤ n →
      (drainLoop q).1 = q.seq ∧ (drainLoop q).2.count = 0 ∧
      (drainLoop q).2.capacity = q.capacity := by
  induction n with
  | zero =>
    intro q hq hle
    have e0 : q.count = 0 := by omega
    rw [drainLoop, dif_neg (by simp [isEmpty, e0])]
    simp [seq, e0]
  | succ n ih =>
    intro q hq hle
    by_cases hz : q.count = 0
    · rw [drainLoop, dif_neg (by simp [isEmpty, hz])]
      simp [seq, hz]
    · obtain ⟨hwf1, hcons, hc1, hcap1⟩ := dequeue1_spec q hq hz
      obtain ⟨ih1, ih2, ih3⟩ := ih (q.dequeue1).2 hwf1 (by omega)
      rw [drainLoop, dif_pos (by simp [isEmpty, hz])]
      refine ⟨?_, ih2, by rw [ih3, hcap1]⟩
      show (q.dequeue1).1 :: (drainLoop (q.dequeue1).2).1 = q.seq
      rw [ih1, ← hcons]

/-- Draining a well-formed queue yields its logical sequence and leaves the
drained copy empty with its capacity intact. -/
theorem drainLoop_spec [Inhabited α] (q : Queue α) (hq : q.WF) :
    (drainLoop q).1 = q.seq ∧ (drainLoop q).2.count = 0 ∧
    (drainLoop q).2.capacity = q.capacity :=
  drainLoop_spec_aux q.count q hq le_rfl

theorem enqueue_count' [Inhabited α] (q : Queue α) (v : α) :
    (q.enqueue v).count = q.count + 1 := by
  unfold enqueue
  by_cases h : q.capacity - 1 ≤ q.count <;> simp [h, expandRingBufferCapacity]

theorem enqueue_no_growth_capacity [Inhabited α] (q : Queue α) (v : α)
    (h : q.count < q.capacity - 1) :
    (q.enqueue v).capacity = q.capacity := by
  unfold enqueue
  rw [if_neg (by omega)]

theorem enqueue_growth_capacity [Inhabited α] (q : Queue α) (v : α)
    (h : q.capacity - 1 ≤ q.count) :
    (q.enqueue v).capacity = 2 * q.capacity := by
  unfold enqueue
  rw [if_pos h]
  rfl

theorem dequeue_capacity [Inhabited α] (q : Queue α) :
    ((q.dequeue).2).capacity = q.capacity := by
  unfold dequeue
  by_cases h : q.count = 0 <;> simp [h, dequeue1]

theorem dequeue_WF [Inhabited α] (q : Queue α) (hq : q.WF) :
    ((q.dequeue).2).WF := by
  by_cases h : q.count = 0
  · simpa [dequeue, h] using hq
  · have := (dequeue1_spec q hq h).1
    simpa [dequeue, h] using this

/-- A run of enqueues that stays strictly below the growth threshold
triggers no growth and leaves the capacity alone. -/
theorem enqueueAllGrowthsAux_no_growth [Inhabited α] : ∀ (xs : List α) (q : Queue α) (g : Nat),
    q.count + xs.length ≤ q.capacity - 1 →
    enqueueAllGrowthsAux (q, g) xs = (q.enqueueAll xs, g) ∧
    (q.enqueueAll xs).capacity = q.capacity ∧
    (q.enqueueAll xs).count = q.count + xs.length := by
  intro xs
  induction xs with
  | nil =>
    intro q g _
    exact ⟨rfl, rfl, rfl⟩
  | cons x xs ih =>
    intro q g hle
    simp only [List.length_cons] at hle
    have hlt : q.count < q.capacity - 1 := by omega
    have hcap := enqueue_no_growth_capacity q x hlt
    have hcnt := enqueue_count' q x
    obtain ⟨ih1, ih2, ih3⟩ := ih (q.enqueue x) g (by omega)
    refine ⟨?_, ?_, ?_⟩
    · show enqueueAllGrowthsAux ((q.enqueue x), g + if q.capacity - 1 ≤ q.count then 1 else 0) xs = _
      rw [if_neg (by omega), Nat.add_zero, ih1]
      rfl
    · show ((q.enqueue x).enqueueAll xs).capacity = q.capacity
      rw [ih2, hcap]
    · show ((q.enqueue x).enqueueAll xs).count = q.count + (xs.length + 1)
      rw [ih3, hcnt]
      omega

/-- Every reachable capacity is the initial capacity times a power of two. -/
theorem applyOps_capacity_pow [Inhabited α] : ∀ (ops : List (QOp α)) (q : Queue α),
    (∃ k : Nat, q.capacity = 10 * 2 ^ k) →
    ∃ k : Nat, (q.applyOps ops).capacity = 10 * 2 ^ k := by
  intro ops
  induction ops with
  | nil => intro q hk; exact hk
  | cons op ops ih =>
    intro q hk
    obtain ⟨k, hk⟩ := hk
    show ∃ k, ((q.applyOp op).applyOps ops).capacity = 10 * 2 ^ k
    apply ih
    cases op with
    | enq v =>
      show ∃ k, (q.enqueue v).capacity = 10 * 2 ^ k
      by_cases h : q.capacity - 1 ≤ q.count
      · refine ⟨k + 1, ?_⟩
        rw [enqueue_growth_capacity q v h, hk, pow_succ]
        ring
      · exact ⟨k, by rw [enqueue_no_growth_capacity q v (by omega), hk]⟩
    | deq =>
      exact ⟨k, by rw [show (q.applyOp QOp.deq) = (q.dequeue).2 from rfl, dequeue_capacity, hk]⟩

/-- Two lists of equal length are equal exactly when they agree position by
position. -/
theorem list_eq_iff_getD [Inhabited α] (l1 l2 : List α) (hlen : l1.length = l2.length) :
    l1 = l2 ↔ ∀ i, i < l1.length → l1.getD i default = l2.getD i default := by
  constructor
  · intro h i _
    rw [h]
  · intro h
    apply List.ext_getElem hlen
    intro i h1 h2
    have := h i h1
    rw [List.getD_eq_getElem?_getD, List.getD_eq_getElem?_getD,
      List.getElem?_eq_getElem h1, List.getElem?_eq_getElem h2] at this
    simpa using this

end Queue

/-! Lemmas about the modelled collaborators. -/

theorem skipWs_cons_ws {c : Char} (s : List Char) (hc : c.isWhitespace = true) :
    skipWs (c :: s) = skipWs s := by
  simp [skipWs, hc]

theorem skipWs_cons_not {c : Char} (s : List Char) (hc : c.isWhitespace = false) :
    skipWs (c :: s) = c :: s := by
  simp [skipWs, hc]

theorem skipWs_length_le (s : List Char) : (skipWs s).length ≤ s.length := by
  induction s with
  | nil => simp [skipWs]
  | cons c s ih =>
    by_cases hc : c.isWhitespace
    · rw [skipWs_cons_ws s hc]
      simp
      omega
    · rw [skipWs_cons_not s (by simpa using hc)]

theorem readChar_cons_not {c : Char} (s : List Char) (hc : c.isWhitespace = false) :
    readChar (c :: s) = some (c, s) := by
  simp [readChar, skipWs_cons_not s hc]

theorem readChar_length {s s' : List Char} {c : Char}
    (h : readChar s = some (c, s')) : s'.length < s.length := by
  unfold readChar at h
  cases hsk : skipWs s with
  | nil => rw [hsk] at h; exact absurd h (by simp)
  | cons a t =>
    rw [hsk] at h
    have hlen := skipWs_length_le s
    rw [hsk] at hlen
    simp at h
    obtain ⟨rfl, rfl⟩ := h
    simp at hlen
    omega

theorem readNat_cons_ws {c : Char} (x : List Char) (hc : c.isWhitespace = true) :
    readNat (c :: x) = readNat x := by
  unfold readNat
  rw [skipWs_cons_ws x hc]

/-- Facts about the ten decimal digit characters. -/
theorem digitChar_facts (d : Nat) (h : d < 10) :
    (Nat.digitChar d).isDigit = true ∧
    (Nat.digitChar d).isWhitespace = false ∧
    (Nat.digitChar d).toNat - 48 = d ∧
    Nat.digitChar d ≠ '\x7d' ∧
    Nat.digitChar d ≠ ',' ∧
    Nat.digitChar d ≠ '\x7b' := by
  interval_cases d <;> exact ⟨by decide, by decide, by decide, by decide, by decide, by decide⟩

theorem writeNatCore_fuel : ∀ (f1 f2 n : Nat), n < f1 → n < f2 →
    writeNatCore f1 n = writeNatCore f2 n := by
  intro f1
  induction f1 with
  | zero => intro f2 n h1 _; omega
  | succ f1 ih =>
    intro f2 n h1 h2
    obtain ⟨f2', rfl⟩ : ∃ f2', f2 = f2' + 1 := ⟨f2 - 1, by omega⟩
    by_cases hn : n < 10
    · simp [writeNatCore, hn]
    · have hdiv : n / 10 < n := Nat.div_lt_self (by omega) (by omega)
      simp only [writeNatCore, if_neg hn]
      rw [ih f2' (n / 10) (by omega) (by omega)]

theorem writeNat_lt_ten (n : Nat) (h : n < 10) : writeNat n = [Nat.digitChar n] := by
  simp [writeNat, writeNatCore, h]

theorem writeNat_ge_ten (n : Nat) (h : 10 ≤ n) :
    writeNat n = writeNat (n / 10) ++ [Nat.digitChar (n % 10)] := by
  have hdiv : n / 10 < n := Nat.div_lt_self (by omega) (by omega)
  show writeNatCore (n + 1) n = _
  rw [show writeNatCore (n + 1) n =
      writeNatCore n (n / 10) ++ [Nat.digitChar (n % 10)] from by
    simp [writeNatCore, show ¬ n < 10 from by omega]]
  rw [writeNatCore_fuel n (n / 10 + 1) (n / 10) (by omega) (by omega)]
  rfl

/-- Every character of a rendered number is a decimal digit (hence not a
whitespace character, a brace, or a comma). -/
theorem writeNat_mem (n : Nat) : ∀ c ∈ writeNat n,
    c.isDigit = true ∧ c.isWhitespace = false ∧
    c ≠ '\x7d' ∧ c ≠ ',' ∧ c ≠ '\x7b' := by
  induction n using Nat.strong_induction_on with
  | _ n ih =>
    intro c hc
    by_cases hn : n < 10
    · rw [writeNat_lt_ten n hn] at hc
      simp at hc
      obtain ⟨h1, h2, _, h4, h5, h6⟩ := digitChar_facts n hn
      exact hc ▸ ⟨h1, h2, h4, h5, h6⟩
    · rw [writeNat_ge_ten n (by omega)] at hc
      rcases List.mem_append.mp hc with hmem | hmem
      · exact ih (n / 10) (Nat.div_lt_self (by omega) (by omega)) c hmem
      · simp at hmem
        obtain ⟨h1, h2, _, h4, h5, h6⟩ := digitChar_facts (n % 10) (Nat.mod_lt _ (by omega))
        exact hmem ▸ ⟨h1, h2, h4, h5, h6⟩

theorem writeNat_ne_nil (n : Nat) : writeNat n ≠ [] := by
  by_cases hn : n < 10
  · rw [writeNat_lt_ten n hn]
    simp
  · rw [writeNat_ge_ten n (by omega)]
    simp

theorem writeNat_length_pos (n : Nat) : 0 < (writeNat n).length :=
  List.length_pos.mpr (writeNat_ne_nil n)

/-- Folding the decimal digits of `n` over an accumulator reconstructs `n`. -/
theorem writeNat_foldl (n : Nat) : ∀ acc : Nat,
    (writeNat n).foldl (fun a c => 10 * a + (c.toNat - 48)) acc =
      acc * 10 ^ (writeNat n).length + n := by
  induction n using Nat.strong_induction_on with
  | _ n ih =>
    intro acc
    by_cases hn : n < 10
    · rw [writeNat_lt_ten n hn]
      obtain ⟨_, _, h3, _, _, _⟩ := digitChar_facts n hn
      simp [h3]
      omega
    · rw [writeNat_ge_ten n (by omega)]
      rw [List.foldl_append]
      rw [ih (n / 10) (Nat.div_lt_self (by omega) (by omega)) acc]
      obtain ⟨_, _, h3, _, _, _⟩ := digitChar_facts (n % 10) (Nat.mod_lt _ (by omega))
      simp only [List.foldl_cons, List.foldl_nil, h3, List.length_append,
        List.length_singleton]
      have hpow : acc * 10 ^ ((writeNat (n / 10)).length + 1) =
          (acc * 10 ^ (writeNat (n / 10)).length) * 10 := by
        rw [pow_succ]
        ring
      rw [hpow]
      generalize acc * 10 ^ (writeNat (n / 10)).length = t
      omega

theorem takeWhile_all_append (p : Char → Bool) (l r : List Char)
    (hl : ∀ c ∈ l, p c = true)
    (hr : r = [] ∨ ∃ c cs, r = c :: cs ∧ p c = false) :
    (l ++ r).takeWhile p = l ∧ (l ++ r).dropWhile p = r := by
  induction l with
  | nil =>
    simp only [List.nil_append]
    rcases hr with rfl | ⟨c, cs, rfl, hc⟩
    · simp
    · simp [List.takeWhile_cons, List.dropWhile_cons, hc]
  | cons a l ih =>
    have ha : p a = true := hl a (by simp)
    obtain ⟨ih1, ih2⟩ := ih (fun c hc => hl c (by simp [hc]))
    simp only [List.cons_append, List.takeWhile_cons, List.dropWhile_cons, ha]
    simp [ih1, ih2]

/-- Reading back a rendered number, followed by input that does not start
with a digit, recovers the number exactly and consumes nothing else. -/
theorem readNat_writeNat (n : Nat) (rest : List Char)
    (hr : rest = [] ∨ ∃ c cs, rest = c :: cs ∧ c.isDigit = false) :
    readNat (writeNat n ++ rest) = some (n, rest) := by
  obtain ⟨d, t, hdt⟩ : ∃ d t, writeNat n = d :: t := by
    cases hw : writeNat n with
    | nil => exact absurd hw (writeNat_ne_nil n)
    | cons d t => exact ⟨d, t, rfl⟩
  have hd : d.isWhitespace = false :=
    (writeNat_mem n d (by rw [hdt]; simp)).2.1
  have hskip : skipWs (writeNat n ++ rest) = writeNat n ++ rest := by
    rw [hdt, List.cons_append, skipWs_cons_not _ hd]
  obtain ⟨htake, hdrop⟩ := takeWhile_all_append Char.isDigit (writeNat n) rest
    (fun c hc => (writeNat_mem n c hc).1) hr
  unfold readNat
  simp only [hskip, htake, hdrop, if_neg (writeNat_ne_nil n)]
  rw [writeNat_foldl n 0]
  simp

theorem readLoop_succ_ws (f : Nat) (c : Char) (x : List Char) (q : Queue Nat)
    (hc : c.isWhitespace = true) :
    readLoop (f + 1) (c :: x) q = readLoop (f + 1) x q := by
  simp only [readLoop, readNat_cons_ws x hc]

theorem writeVals_cons (v : Nat) (vs : List Nat) :
    ∃ ts, writeVals (v :: vs) = writeNat v ++ ts := by
  cases vs with
  | nil => exact ⟨[], by simp [writeVals]⟩
  | cons w vs' => exact ⟨',' :: ' ' :: writeVals (w :: vs'), rfl⟩

/-- Running the element loop on the serialization of a non-empty value list
followed by a closing brace enqueues exactly those values and stops at the
brace, provided the fuel exceeds the input length. -/
theorem readLoop_writeVals : ∀ (vs : List Nat) (v : Nat) (q : Queue Nat)
    (rest : List Char) (fuel : Nat),
    (writeVals (v :: vs) ++ '\x7d' :: rest).length < fuel →
    readLoop fuel (writeVals (v :: vs) ++ '\x7d' :: rest) q =
      (q.enqueueAll (v :: vs), Except.ok rest) := by
  intro vs
  induction vs with
  | nil =>
    intro v q rest fuel hlen
    obtain ⟨f, rfl⟩ : ∃ f, fuel = f + 1 := ⟨fuel - 1, by omega⟩
    show readLoop (f + 1) (writeNat v ++ '\x7d' :: rest) q = _
    have hrn : readNat (writeNat v ++ '\x7d' :: rest) = some (v, '\x7d' :: rest) :=
      readNat_writeNat v _ (Or.inr ⟨'\x7d', rest, rfl, by decide⟩)
    have hrc : readChar ('\x7d' :: rest) = some ('\x7d', rest) :=
      readChar_cons_not rest (by decide)
    simp only [readLoop, hrn, hrc]
    rw [if_pos trivial]
    rfl
  | cons w vs ih =>
    intro v q rest fuel hlen
    have hshape : writeVals (v :: w :: vs) ++ '\x7d' :: rest =
        writeNat v ++ ',' :: ' ' :: (writeVals (w :: vs) ++ '\x7d' :: rest) := by
      show (writeNat v ++ ',' :: ' ' :: writeVals (w :: vs)) ++ '\x7d' :: rest = _
      simp
    have hW := writeNat_length_pos v
    have hlen' : (writeNat v).length + 2 +
        (writeVals (w :: vs) ++ '\x7d' :: rest).length < fuel := by
      rw [hshape] at hlen
      simp only [List.length_append, List.length_cons] at hlen ⊢
      omega
    obtain ⟨f, rfl⟩ : ∃ f, fuel = f + 1 := ⟨fuel - 1, by omega⟩
    rw [hshape]
    have hrn : readNat (writeNat v ++ ',' :: ' ' :: (writeVals (w :: vs) ++ '\x7d' :: rest)) =
        some (v, ',' :: ' ' :: (writeVals (w :: vs) ++ '\x7d' :: rest)) :=
      readNat_writeNat v _ (Or.inr ⟨',', _, rfl, by decide⟩)
    have hrc : readChar (',' :: ' ' :: (writeVals (w :: vs) ++ '\x7d' :: rest)) =
        some (',', ' ' :: (writeVals (w :: vs) ++ '\x7d' :: rest)) :=
      readChar_cons_not _ (by decide)
    simp only [readLoop, hrn, hrc]
    rw [if_pos trivial]
    obtain ⟨g, rfl⟩ : ∃ g, f = g + 1 := ⟨f - 1, by omega⟩
    rw [readLoop_succ_ws g ' ' _ _ (by decide)]
    exact ih w (q.enqueue v) rest (g + 1) (by omega)

/-- On a well-formed queue the counted drain of `operator<<` produces the
logical sequence, so the serialized text is brace, separated elements,
brace. -/
theorem writeQueue_eq (q : Queue Nat) (hq : q.WF) :
    writeQueue q = '\x7b' :: writeVals q.seq ++ ['\x7d'] := by
  have hvals : (q.dequeueN q.size).1 = q.seq := by
    obtain ⟨h1, _, _, _, _⟩ := Queue.dequeueN_spec q.count q hq le_rfl
    show (q.dequeueN q.count).1 = q.seq
    rw [h1, ← Queue.seq_length q, List.take_length]
  show '\x7b' :: writeVals ((q.dequeueN q.size).1) ++ ['\x7d'] = _
  rw [hvals]

/-- Parsing the serialization of a well-formed queue into any destination
queue succeeds, consumes the whole input, and reconstructs the logical
sequence on a freshly cleared queue. -/
theorem readQueue_writeQueue (q qd : Queue Nat) (hq : q.WF) :
    readQueue (writeQueue q) qd =
      ((Queue.new : Queue Nat).enqueueAll q.seq, Except.ok []) := by
  rw [writeQueue_eq q hq]
  cases hseq : q.seq with
  | nil =>
    show readQueue ('\x7b' :: ([] ++ ['\x7d'])) qd = _
    have hrc1 : readChar ('\x7b' :: ['\x7d']) = some ('\x7b', ['\x7d']) :=
      readChar_cons_not _ (by decide)
    have hrc2 : readChar ['\x7d'] = some ('\x7d', []) :=
      readChar_cons_not _ (by decide)
    simp only [List.nil_append, readQueue, hrc1, hrc2]
    rw [if_pos trivial]
    rfl
  | cons v vs =>
    obtain ⟨ts, hts⟩ := writeVals_cons v vs
    obtain ⟨d, t, hdt⟩ : ∃ d t, writeNat v = d :: t := by
      cases hw : writeNat v with
      | nil => exact absurd hw (writeNat_ne_nil v)
      | cons d t => exact ⟨d, t, rfl⟩
    have hdfacts := writeNat_mem v d (by rw [hdt]; simp)
    have hs1 : writeVals (v :: vs) ++ ['\x7d'] = d :: (t ++ ts ++ ['\x7d']) := by
      rw [hts, hdt]
      simp
    have hrc1 : readChar ('\x7b' :: (writeVals (v :: vs) ++ ['\x7d'])) =
        some ('\x7b', writeVals (v :: vs) ++ ['\x7d']) :=
      readChar_cons_not _ (by decide)
    have hrc2 : readChar (writeVals (v :: vs) ++ ['\x7d']) =
        some (d, t ++ ts ++ ['\x7d']) := by
      rw [hs1]
      exact readChar_cons_not _ hdfacts.2.1
    show readQueue ('\x7b' :: (writeVals (v :: vs) ++ ['\x7d'])) qd = _
    simp only [readQueue, hrc1, hrc2]
    rw [if_neg hdfacts.2.2.1]
    rw [show d :: (t ++ ts ++ ['\x7d']) = writeVals (v :: vs) ++ '\x7d' :: [] from hs1.symm]
    exact readLoop_writeVals vs v (Queue.clear qd) [] _ (Nat.lt_succ_self _)

/-- `writeVals` is exactly comma-space intercalation of the rendered
elements. -/
theorem writeVals_intercalate : ∀ vs : List Nat,
    writeVals vs = List.intercalate [',', ' '] (vs.map writeNat) := by
  intro vs
  induction vs with
  | nil => simp [writeVals, List.intercalate]
  | cons v vs ih =>
    cases vs with
    | nil => simp [writeVals, List.intercalate]
    | cons w vs' =>
      show writeNat v ++ ',' :: ' ' :: writeVals (w :: vs') = _
      rw [ih]
      show _ = List.intercalate [',', ' '] (writeNat v :: writeNat w :: vs'.map writeNat)
      unfold List.intercalate
      rw [List.intersperse_cons_cons, List.join_cons, List.join_cons]
      simp

/-! The claim theorems. -/

/-- C1: FIFO law — for every sequence of values enqueued into a fresh
queue and then dequeued the same number of times (with no intervening
clear), the dequeues return exactly those values in the order they were
enqueued. -/
theorem C1_fifo_law {α : Type u} [Inhabited α] (xs : List α) :
    (((Queue.new : Queue α).enqueueAll xs).dequeueN xs.length).1 = xs := by
  obtain ⟨hwf, hseq⟩ := Queue.enqueueAll_spec Queue.new xs Queue.new_WF
  rw [Queue.new_seq, List.nil_append] at hseq
  have hcnt : ((Queue.new : Queue α).enqueueAll xs).count = xs.length := by
    rw [← Queue.seq_length, hseq]
  obtain ⟨h1, _, _, _, _⟩ := Queue.dequeueN_spec xs.length _ hwf (by omega)
  rw [h1, hseq, List.take_length]

/-- C2: growth policy — `expandRingBufferCapacity` allocates a store of
length `2 * capacity`, copies the `count` live elements in logical order to
indices `0..count-1`, sets `head = 0`, `tail = count`, doubles the
capacity, and changes neither the count nor the logical sequence; `enqueue`
doubles the capacity exactly when it finds `count >= capacity - 1`; and
enqueueing 10 elements into a fresh queue (initial capacity 10) triggers
exactly one growth — on the 10th enqueue, none among the first 9 — after
which all 10 values dequeue in the original order. -/
theorem C2_growth_policy {α : Type u} [Inhabited α] :
    (∀ q : Queue α, q.WF →
      (q.expandRingBufferCapacity).capacity = 2 * q.capacity ∧
      (q.expandRingBufferCapacity).ringBuffer.length = 2 * q.capacity ∧
      (q.expandRingBufferCapacity).head = 0 ∧
      (q.expandRingBufferCapacity).tail = q.count ∧
      (q.expandRingBufferCapacity).count = q.count ∧
      (q.expandRingBufferCapacity).seq = q.seq ∧
      (∀ i, i < q.count →
        (q.expandRingBufferCapacity).ringBuffer.getD i default =
          q.ringBuffer.getD ((q.head + i) % q.capacity) default)) ∧
    (∀ (q : Queue α) (v : α), q.capacity - 1 ≤ q.count →
      (q.enqueue v).capacity = 2 * q.capacity) ∧
    (∀ (q : Queue α) (v : α), q.count < q.capacity - 1 →
      (q.enqueue v).capacity = q.capacity) ∧
    (∀ xs : List α, xs.length = 10 →
      ((Queue.new : Queue α).enqueueAllGrowths xs).2 = 1 ∧
      ((Queue.new : Queue α).enqueueAllGrowths (xs.take 9)).2 = 0 ∧
      ((Queue.new : Queue α).enqueueAll xs).capacity = 20 ∧
      (((Queue.new : Queue α).enqueueAll xs).dequeueN 10).1 = xs) := by
  refine ⟨?_, ?_, ?_, ?_⟩
  · intro q hq
    obtain ⟨h1, h2, h3, h4, h5, h6, _⟩ := Queue.expand_spec q hq
    refine ⟨h1, h5, h2, h3, h4, h6, ?_⟩
    intro i hi
    obtain ⟨hcap, hcnt, _, _, _, _⟩ := hq
    rw [Queue.expand_ringBuffer_getD q i (by omega), if_pos hi]
  · exact fun q v h => Queue.enqueue_growth_capacity q v h
  · exact fun q v h => Queue.enqueue_no_growth_capacity q v h
  · intro xs hlen
    have hne : xs ≠ [] := by
      intro h
      rw [h] at hlen
      simp at hlen
    obtain ⟨ys, z, hys, hz⟩ : ∃ ys z, xs = ys ++ [z] ∧ ys.length = 9 :=
      ⟨xs.dropLast, xs.getLast hne, (List.dropLast_append_getLast hne).symm,
        by rw [List.length_dropLast, hlen]⟩
    subst hys
    have htake : (ys ++ [z]).take 9 = ys := by
      rw [← hz]
      exact List.take_left ys [z]
    obtain ⟨hng1, hng2, hng3⟩ :=
      Queue.enqueueAllGrowthsAux_no_growth ys (Queue.new : Queue α) 0
        (by rw [hz]; show (0 : Nat) + 9 ≤ 10 - 1; omega)
    have hq9cap : ((Queue.new : Queue α).enqueueAll ys).capacity = 10 := by
      rw [hng2]
      rfl
    have hq9cnt : ((Queue.new : Queue α).enqueueAll ys).count = 9 := by
      rw [hng3, hz]
      rfl
    have hsplit : Queue.enqueueAllGrowthsAux ((Queue.new : Queue α), 0) (ys ++ [z]) =
        Queue.enqueueAllGrowthsAux (Queue.enqueueAllGrowthsAux ((Queue.new : Queue α), 0) ys) [z] := by
      unfold Queue.enqueueAllGrowthsAux
      rw [List.foldl_append]
    have happ : (Queue.new : Queue α).enqueueAll (ys ++ [z]) =
        ((Queue.new : Queue α).enqueueAll ys).enqueue z := by
      unfold Queue.enqueueAll
      rw [List.foldl_append]
      rfl
    refine ⟨?_, ?_, ?_, ?_⟩
    · show (Queue.enqueueAllGrowthsAux ((Queue.new : Queue α), 0) (ys ++ [z])).2 = 1
      rw [hsplit, hng1]
      show 0 + (if ((Queue.new : Queue α).enqueueAll ys).capacity - 1 ≤
          ((Queue.new : Queue α).enqueueAll ys).count then 1 else 0) = 1
      rw [hq9cap, hq9cnt]
      decide
    · show (Queue.enqueueAllGrowthsAux ((Queue.new : Queue α), 0) ((ys ++ [z]).take 9)).2 = 0
      simp only [htake, hng1]
    · rw [happ, Queue.enqueue_growth_capacity _ z (by rw [hq9cap, hq9cnt]), hq9cap]
    · obtain ⟨hwf, hseq⟩ := Queue.enqueueAll_spec Queue.new (ys ++ [z]) Queue.new_WF
      rw [Queue.new_seq, List.nil_append] at hseq
      have hcnt10 : ((Queue.new : Queue α).enqueueAll (ys ++ [z])).count = 10 := by
        rw [← Queue.seq_length, hseq]
        simp [hz]
      obtain ⟨h1, _, _, _, _⟩ := Queue.dequeueN_spec 10 _ hwf (by omega)
      rw [h1, hseq, show (10 : Nat) = (ys ++ [z]).length from by simp [hz], List.take_length]

/-- Witness for C2 at a concrete input: enqueueing the ten numbers `0..9`
into a fresh queue triggers exactly one growth. -/
theorem C2_growth_policy_witness :
    ((Queue.new : Queue Nat).enqueueAllGrowths [0, 1, 2, 3, 4, 5, 6, 7, 8, 9]).2 = 1 :=
  ((C2_growth_policy (α := Nat)).2.2.2 [0, 1, 2, 3, 4, 5, 6, 7, 8, 9] rfl).1

/-- C3: representation invariant — after construction, clear, every
enqueue (including internal growth) and every dequeue, the state satisfies
`0 ≤ count ≤ capacity - 1`, `head, tail ∈ [0, capacity)`,
`tail = (head + count) % capacity`, the store has exactly `capacity` slots,
and the logical sequence is `store[(head+i) % capacity]` for `i < count`,
index 0 the oldest. -/
theorem C3_invariant {α : Type u} [Inhabited α] :
    (∀ q : Queue α, (q.clear).WF) ∧
    ((Queue.new : Queue α).WF) ∧
    (∀ (q : Queue α) (v : α), q.WF → (q.enqueue v).WF) ∧
    (∀ q : Queue α, q.WF → ((q.dequeue).2).WF) ∧
    (∀ q : Queue α, q.WF → (q.expandRingBufferCapacity).WF) ∧
    (∀ q : Queue α, q.seq = (List.range q.count).map
      (fun i => q.ringBuffer.getD ((q.head + i) % q.capacity) default)) := by
  refine ⟨Queue.clear_WF, Queue.new_WF, ?_, Queue.dequeue_WF, ?_, fun q => rfl⟩
  · exact fun q v hq => (Queue.enqueue_spec q v hq).1
  · exact fun q hq => (Queue.expand_spec q hq).2.2.2.2.2.2

/-- Witness for C3 at a concrete input. -/
theorem C3_invariant_witness : ((Queue.new : Queue Nat).enqueue 7).WF :=
  (C3_invariant).2.2.1 Queue.new 7 Queue.new_WF

/-- C4: `equals` is structural — it is reflexive (covering the identity
short-circuit), returns false when the sizes differ, is symmetric, and for
well-formed queues of equal size returns true exactly when the elements at
each FIFO position are pairwise equal. -/
theorem C4_equals {α : Type u} [DecidableEq α] [Inhabited α] :
    (∀ q : Queue α, q.equals q = true) ∧
    (∀ q1 q2 : Queue α, q1.size ≠ q2.size → q1.equals q2 = false) ∧
    (∀ q1 q2 : Queue α, q1.WF → q2.WF → q1.size = q2.size →
      (q1.equals q2 = true ↔
        ∀ i, i < q1.size → q1.seq.getD i default = q2.seq.getD i default)) ∧
    (∀ q1 q2 : Queue α, q1.equals q2 = q2.equals q1) := by
  refine ⟨Queue.equals_self, ?_, ?_, Queue.equals_comm⟩
  · intro q1 q2 h
    unfold Queue.equals
    rw [if_pos h]
  · intro q1 q2 h1 h2 hs
    rw [Queue.equals_iff q1 q2 h1 h2]
    have hlen : q1.seq.length = q2.seq.length := by
      rw [Queue.seq_length, Queue.seq_length]
      exact hs
    rw [Queue.list_eq_iff_getD _ _ hlen, Queue.seq_length]
    exact Iff.rfl

/-- Witness for C4 at a concrete input: queues of sizes 1 and 2 are not
equal. -/
theorem C4_equals_witness :
    (((Queue.new : Queue Nat).enqueue 1).equals
      (((Queue.new : Queue Nat).enqueue 1).enqueue 2)) = false :=
  (C4_equals).2.1 _ _ (by decide)

/-- C5: empty-queue errors — `front`, `back`, `dequeue`, `peek` each raise
the empty-queue error exactly when `count == 0` (in particular on a fresh
or freshly cleared queue, since those have `count = 0`), and an erroring
`dequeue` leaves the state unchanged (`front`, `back`, `peek` never modify
the state: they are functions of the queue returning no post-state). -/
theorem C5_empty_errors {α : Type u} [Inhabited α] (q : Queue α) :
    (q.front = Except.error "Queue::front: Attempting to read front of an empty queue"
      ↔ q.count = 0) ∧
    (q.back = Except.error "Queue::back: Attempting to read back of an empty queue"
      ↔ q.count = 0) ∧
    (q.peek = Except.error "Queue::peek: Attempting to peek at an empty queue"
      ↔ q.count = 0) ∧
    ((q.dequeue).1 = Except.error "Queue::dequeue: Attempting to dequeue an empty queue"
      ↔ q.count = 0) ∧
    (q.count = 0 → (q.dequeue).2 = q) := by
  by_cases h : q.count = 0 <;>
    simp [Queue.front, Queue.back, Queue.peek, Queue.dequeue, h]

/-- Witness for C5 at a concrete input: an erroring dequeue on a fresh
queue leaves it unchanged. -/
theorem C5_empty_errors_witness : (((Queue.new : Queue Nat)).dequeue).2 = Queue.new :=
  (C5_empty_errors (Queue.new : Queue Nat)).2.2.2.2 rfl

/-- C6 counterexample: the claim that "the queue passed to parse is cleared
regardless of how far parsing proceeded before failing, so no failing parse
leaves the queue holding either its prior contents or a partially parsed
prefix" is false on the code.  Parsing the input `[1]` (missing opening
brace) into a queue holding the single element 5 fails with the format
error but leaves the queue exactly as it was — `clear` runs only after the
opening brace has been consumed — and parsing the input with an unexpected
semicolon into that same queue discards the 5 but leaves the
already-parsed prefix `[1]` enqueued. -/
theorem C6_counterexample :
    (readQueue ("[1]".toList) ((Queue.new : Queue Nat).enqueue 5)).2 =
      Except.error "Queue::operator >>: Missing \x7b" ∧
    (readQueue ("[1]".toList) ((Queue.new : Queue Nat).enqueue 5)).1 =
      (Queue.new : Queue Nat).enqueue 5 ∧
    (readQueue ("[1]".toList) ((Queue.new : Queue Nat).enqueue 5)).1.count = 1 ∧
    (readQueue ("\x7b1; 2\x7d".toList) ((Queue.new : Queue Nat).enqueue 5)).2 =
      Except.error "Queue::operator >>: Unexpected character ;" ∧
    (readQueue ("\x7b1; 2\x7d".toList) ((Queue.new : Queue Nat).enqueue 5)).1.seq = [1] :=
  ⟨rfl, rfl, rfl, rfl, by decide⟩

/-- C6 (amended): reading a serialized queue fails with the format error
when the opening brace is missing (also when the stream is already
exhausted, since the extracted character then keeps its initial null
value), and when a character other than a comma or a closing brace appears
where a separator or terminator is expected; a missing opening brace leaves
the queue untouched with its prior contents (the clear happens only after
the opening brace is consumed), while a later unexpected character leaves
the queue cleared and holding the elements parsed before the failure. -/
theorem C6_amended :
    (∀ (s : List Char) (q : Queue Nat), readChar s = none →
      readQueue s q = (q, Except.error "Queue::operator >>: Missing \x7b")) ∧
    (∀ (s : List Char) (q : Queue Nat) (c : Char) (s1 : List Char),
      readChar s = some (c, s1) → c ≠ '\x7b' →
      readQueue s q = (q, Except.error "Queue::operator >>: Missing \x7b")) ∧
    (∀ (fuel : Nat) (s s1 s2 : List Char) (q : Queue Nat) (v : Nat) (ch : Char),
      readNat s = some (v, s1) → readChar s1 = some (ch, s2) →
      ch ≠ '\x7d' → ch ≠ ',' →
      readLoop (fuel + 1) s q =
        (q.enqueue v,
         Except.error ("Queue::operator >>: Unexpected character " ++ ch.toString))) := by
  refine ⟨?_, ?_, ?_⟩
  · intro s q h
    simp only [readQueue, h]
  · intro s q c s1 h hc
    simp only [readQueue, h]
    rw [if_pos hc]
  · intro fuel s s1 s2 q v ch h1 h2 hch1 hch2
    simp only [readLoop, h1, h2]
    rw [if_neg hch1, if_neg hch2]

/-- Witness for C6 (amended) at a concrete input: parsing `[1]` into a
queue holding 5 reports a missing opening brace and leaves the queue
untouched. -/
theorem C6_amended_witness :
    readQueue ("[1]".toList) ((Queue.new : Queue Nat).enqueue 5) =
      ((Queue.new : Queue Nat).enqueue 5,
       Except.error "Queue::operator >>: Missing \x7b") :=
  (C6_amended).2.1 ("[1]".toList) _ '[' ("1]".toList) rfl (by decide)

/-- C7: round-trip law — serializing any well-formed queue with
`toString` / stream output and parsing the text into a fresh queue (any
destination queue: parsing clears it) succeeds, consumes the whole text,
and yields a queue `equals`-equal to the original; the empty queue is the
`q.count = 0` instance. -/
theorem C7_roundtrip (q qd : Queue Nat) (hq : q.WF) :
    (readQueue (q.toString.toList) qd).2 = Except.ok [] ∧
    ((readQueue (q.toString.toList) qd).1.equals q) = true := by
  have hlist : q.toString.toList = writeQueue q := rfl
  rw [hlist, readQueue_writeQueue q qd hq]
  obtain ⟨hwf, hseq⟩ := Queue.enqueueAll_spec Queue.new q.seq Queue.new_WF
  rw [Queue.new_seq, List.nil_append] at hseq
  exact ⟨rfl, (Queue.equals_iff _ q hwf hq).mpr hseq⟩

/-- Witness for C7 at a concrete input: the queue holding 1, 2 round-trips
through its serialization. -/
theorem C7_roundtrip_witness :
    ((readQueue (((((Queue.new : Queue Nat).enqueue 1).enqueue 2)).toString.toList)
        Queue.new).1.equals (((Queue.new : Queue Nat).enqueue 1).enqueue 2)) = true :=
  (C7_roundtrip (((Queue.new : Queue Nat).enqueue 1).enqueue 2) Queue.new (by decide)).2

/-- C8: non-destructive inspection — the const methods `equals`,
`toString` / stream output, `toStlDeque` and `toStlQueue` never write their
operands: their method embeddings return the operand states unchanged, the
exports visit the elements in front-to-back (FIFO) order, and the drain
they all share empties only the local copy. -/
theorem C8_non_destructive (q1 q2 : Queue Nat) (h1 : q1.WF) :
    ((q1.toStlDeque).2 = q1) ∧
    ((q1.toStlQueue).2 = q1) ∧
    ((q1.toStlDeque).1 = q1.seq) ∧
    ((q1.toStlQueue).1 = q1.seq) ∧
    ((Queue.drainLoop q1).2.count = 0) ∧
    ((Queue.equalsM q1 q2).2.1 = q1 ∧ (Queue.equalsM q1 q2).2.2 = q2) ∧
    ((Queue.toStringM q1).2 = q1) := by
  obtain ⟨hd1, hd2, _⟩ := Queue.drainLoop_spec q1 h1
  exact ⟨rfl, rfl, hd1, hd1, hd2, ⟨rfl, rfl⟩, rfl⟩

/-- Witness for C8 at a concrete input. -/
theorem C8_non_destructive_witness :
    (((Queue.new : Queue Nat).enqueue 3).toStlDeque).1 =
      ((Queue.new : Queue Nat).enqueue 3).seq :=
  (C8_non_destructive ((Queue.new : Queue Nat).enqueue 3) Queue.new (by decide)).2.2.1

/-- C9: formatting — the serialized text of a well-formed queue is exactly
an opening brace, the rendered elements in FIFO order separated by
comma-space with no trailing separator, and a closing brace; the empty
queue renders as a brace pair. -/
theorem C9_formatting (q : Queue Nat) (hq : q.WF) :
    q.toString = String.mk
      ('\x7b' :: List.intercalate (", ".toList) (q.seq.map writeNat) ++ ['\x7d']) ∧
    (q.count = 0 → q.toString = "\x7b\x7d") := by
  have hcomma : (", ").toList = [',', ' '] := rfl
  constructor
  · show String.mk (writeQueue q) = _
    rw [writeQueue_eq q hq, writeVals_intercalate, hcomma]
  · intro h0
    show String.mk (writeQueue q) = _
    rw [writeQueue_eq q hq]
    have hnil : q.seq = [] := by
      simp [Queue.seq, h0]
    rw [hnil]
    rfl

/-- Witness for C9 at a concrete input: the empty queue renders as a brace
pair. -/
theorem C9_formatting_witness : (Queue.new : Queue Nat).toString = "\x7b\x7d" :=
  (C9_formatting Queue.new (by decide)).2 rfl

/-- C10: implicit capacity invariant — dequeue never changes the capacity
and enqueue either keeps it or doubles it (so neither ever decreases it);
consequently after any sequence of enqueues and dequeues from a fresh
queue the capacity is `10 * 2^k` for some `k`, and only `clear` (or
construction, which calls `clear`) resets it to the initial value 10. -/
theorem C10_capacity {α : Type u} [Inhabited α] :
    (∀ (q : Queue α) (v : α), q.capacity ≤ (q.enqueue v).capacity) ∧
    (∀ (q : Queue α) (v : α),
      (q.enqueue v).capacity = q.capacity ∨ (q.enqueue v).capacity = 2 * q.capacity) ∧
    (∀ q : Queue α, ((q.dequeue).2).capacity = q.capacity) ∧
    (∀ ops : List (QOp α), ∃ k : Nat,
      ((Queue.new : Queue α).applyOps ops).capacity = 10 * 2 ^ k) ∧
    (∀ q : Queue α, (q.clear).capacity = 10) ∧
    ((Queue.new : Queue α).capacity = 10) := by
  have hor : ∀ (q : Queue α) (v : α),
      (q.enqueue v).capacity = q.capacity ∨ (q.enqueue v).capacity = 2 * q.capacity := by
    intro q v
    by_cases h : q.capacity - 1 ≤ q.count
    · exact Or.inr (Queue.enqueue_growth_capacity q v h)
    · exact Or.inl (Queue.enqueue_no_growth_capacity q v (by omega))
  refine ⟨?_, hor, Queue.dequeue_capacity, ?_, fun q => rfl, rfl⟩
  · intro q v
    rcases hor q v with h | h <;> omega
  · intro ops
    exact Queue.applyOps_capacity_pow ops Queue.new ⟨0, rfl⟩
